import Mathlib

/-!
Shallow embedding of the `rdf` package of this repository (file
`src/rdf/graph.go`) together with models of its external collaborators
(the badwolf in-memory triple store, and the badwolf triple text parser),
and proofs about the graph-level operations: construction, depth-first
traversal, set algebra and canonical serialization.

Modelling conventions:
- Go strings are modelled as `List Char` (`Str`); Go string comparison `<`
  is the lexicographic order on `List Char` (Mathlib instance).
- Go functions that mutate a receiver and return an `error` are modelled as
  pure functions returning the new state paired with an `Option Err`, so
  that the state on the error path stays observable.
- The in-memory store keeps the facts of a named collection as a duplicate
  free list; `AddTriples`, `RemoveTriples`, `Exist` and the full scan are
  modelled set-wise; the store operations that may fail in general
  (existence check, full scan, the subject/predicate query) are passed in
  as function parameters where a claim depends on their error behaviour.
- Unbounded Go recursion (`VisitDepthFirst`) takes a fuel parameter; all
  statements are made at a sufficient fuel.
-/

/-- Characters of a Go string (Go byte strings are modelled at the rune
level; for UTF-8 data the bytewise order used by Go agrees with the
codepoint order used here). -/
abbrev Str := List Char

deriving instance DecidableEq for Except

/-- Model of the errors surfaced by the package: a store query error, the
badwolf type error for an object that is not node shaped, a parse error of
the triple text parser, and an artificial out-of-fuel marker that stands
for non-termination of the unbounded Go recursion. -/
inductive Err where
  | query (msg : Str)
  | notNode (v : Str)
  | parseFailure (line : Str)
  | fuel
  deriving DecidableEq

/-- Object position of a badwolf triple: either a node or a literal. -/
inductive Obj where
  | node (id : Str)
  | lit (v : Str)
  deriving DecidableEq

/-- Model of `*triple.Triple`: an immutable subject/predicate/object fact. -/
structure Triple where
  subj : Str
  pred : Str
  obj : Obj
  deriving DecidableEq

/-- Canonical text of the object, as rendered inside `triple.String()`.
Modelled format for the external badwolf renderer: a node is tagged `N:`,
a literal `L:`. -/
def Obj.render : Obj → Str
  | .node id => 'N' :: ':' :: id
  | .lit v => 'L' :: ':' :: v

/-- Model of the external `triple.String()`: the canonical text form of a
fact, here subject, predicate and rendered object joined by tabs. -/
def Triple.str (t : Triple) : Str :=
  t.subj ++ '\t' :: (t.pred ++ '\t' :: t.obj.render)

/-- Identifier or value carried by the object position. -/
def Obj.payload : Obj → Str
  | .node id => id
  | .lit v => v

/-- Well-formedness of a fact for the modelled text format: no tab and no
newline inside the subject, the predicate, or the object payload. The real
badwolf grammar guarantees the same for its parsable triples. -/
def Triple.wf (t : Triple) : Prop :=
  ('\t' ∉ t.subj ∧ '\n' ∉ t.subj) ∧ ('\t' ∉ t.pred ∧ '\n' ∉ t.pred) ∧
    ('\t' ∉ t.obj.payload ∧ '\n' ∉ t.obj.payload)

instance (t : Triple) : Decidable t.wf := by
  unfold Triple.wf; exact inferInstance

/-- Model of `bytes.Split` on a one-character separator. -/
def splitOnChar (c : Char) : Str → List Str
  | [] => [[]]
  | x :: xs =>
    if x = c then [] :: splitOnChar c xs
    else
      match splitOnChar c xs with
      | [] => [[x]]
      | l :: ls => (x :: l) :: ls

/-- Model of `bytes.Join` with a one-character separator. -/
def joinWith (c : Char) : List Str → Str
  | [] => []
  | [l] => l
  | l :: l2 :: ls => l ++ c :: joinWith c (l2 :: ls)

/-- Model of `bytes.TrimSpace(line)` being empty: the line consists of
whitespace only. -/
def isBlank (l : Str) : Bool :=
  l.all fun c => c = ' ' ∨ c = '\t' ∨ c = '\n' ∨ c = '\r'

/-- Model of the external `triple.Parse` with the default literal builder:
inverse of `Triple.str` on well-formed facts, an error everywhere else. -/
def parseTriple (line : Str) : Except Err Triple :=
  match splitOnChar '\t' line with
  | [s, p, o] =>
    match o with
    | 'N' :: ':' :: id => .ok ⟨s, p, .node id⟩
    | 'L' :: ':' :: v => .ok ⟨s, p, .lit v⟩
    | _ => .error (.parseFailure line)
  | _ => .error (.parseFailure line)

/-- The fixed process-wide `parent_of` predicate identifier. -/
def parentOf : Str := "parent_of".data

/-- Store primitive: insert one fact into the fact set of a collection if
it is not already present (the badwolf memory store keeps facts keyed by
their identity, so a duplicate add is a no-op). -/
def insertFact (fs : List Triple) (t : Triple) : List Triple :=
  if t ∈ fs then fs else fs ++ [t]

/-- Store primitive `AddTriples`: insert each fact in order. -/
def addFacts (fs : List Triple) (ts : List Triple) : List Triple :=
  ts.foldl insertFact fs

/-- Store primitive `RemoveTriples`: drop every fact listed in `ts`;
facts not present are removed silently. -/
def removeFacts (fs : List Triple) (ts : List Triple) : List Triple :=
  fs.filter fun t => decide (t ∉ ts)

/-- Model of `rdf.Graph`: the collection name, the backing fact set held
by the store, and the cumulative add counter `triplesCount`. -/
structure Graph where
  name : Str
  facts : List Triple
  triplesCount : Nat
  deriving DecidableEq

/-- Model of `NewNamedGraph`: a fresh empty collection (the memory store
does not fail on creation in this model; name collisions are a store
concern outside the claims). -/
def NewNamedGraph (name : Str) : Graph :=
  ⟨name, [], 0⟩

/-- Model of `(*Graph).Add`: increment the counter by the number of
submitted facts, then delegate to the store add primitive. -/
def Graph.Add (g : Graph) (ts : List Triple) : Graph :=
  { g with triplesCount := g.triplesCount + ts.length, facts := addFacts g.facts ts }

/-- Model of `(*Graph).TriplesCount`. -/
def Graph.TriplesCount (g : Graph) : Nat :=
  g.triplesCount

/-- Model of `NewNamedGraphFromTriples`: create, pre-set the counter to
the input length, then `Add` all facts. -/
def NewNamedGraphFromTriples (name : Str) (ts : List Triple) : Graph :=
  { NewNamedGraph name with triplesCount := ts.length }.Add ts

/-- Model of `(*Graph).copy`: a fresh collection (`NewGraph()`, whose
random name is made explicit as the `fresh` parameter) into which all
facts of `g` are added once; the scan error is ignored by the Go code and
the memory store scan never fails in this model. -/
def Graph.copy (g : Graph) (fresh : Str) : Graph :=
  (NewNamedGraph fresh).Add g.facts

/-- Model of `(*Graph).Substract`: copy `g`, then remove all facts of
`other` from the copy via the store remove primitive. -/
def Graph.Substract (g : Graph) (other : Graph) (fresh : Str) : Graph :=
  let sub := g.copy fresh
  { sub with facts := removeFacts sub.facts other.facts }

/-- Model of `(*Graph).allTriples` against the in-memory store: the full
scan yields every fact and no error. -/
def Graph.allTriples (g : Graph) : List Triple × Option Err :=
  (g.facts, none)

/-- Model of the store primitive `Exist` against the in-memory store. -/
def Graph.Exist (g : Graph) (t : Triple) : Bool × Option Err :=
  (decide (t ∈ g.facts), none)

/-- Loop body of `(*Graph).Intersect` for one scanned fact: the Go
condition `exists && err == nil` adds the fact, every other outcome of the
existence check skips it silently. -/
def intersectStep (exist : Triple → Bool × Option Err) (inter : Graph) (tri : Triple) : Graph :=
  if exist tri = (true, none) then inter.Add [tri] else inter

/-- Loop of `(*Graph).Intersect`: starting from a fresh collection, fold
the per-fact step over the scanned facts. -/
def intersectLoop (fresh : Str) (all : List Triple) (exist : Triple → Bool × Option Err) : Graph :=
  all.foldl (intersectStep exist) (NewNamedGraph fresh)

/-- Model of `(*Graph).Intersect`, parametrized by the outcome of the full
scan of the receiver and by the existence check of the other collection:
a failed scan returns `none` (the Go nil graph) with no error value. -/
def IntersectWith (scanResult : List Triple × Option Err) (exist : Triple → Bool × Option Err) (fresh : Str) : Option Graph :=
  match scanResult with
  | (_, some _) => none
  | (all, none) => some (intersectLoop fresh all exist)

/-- Model of `(*Graph).Intersect` with both collections backed by the
in-memory store. -/
def Graph.Intersect (g : Graph) (other : Graph) (fresh : Str) : Option Graph :=
  IntersectWith g.allTriples other.Exist fresh

/-- Ordering used by `tripleSorter`: whole-triple canonical string order. -/
def tripleLe (a b : Triple) : Prop :=
  a.str ≤ b.str

instance : DecidableRel tripleLe := fun a b =>
  inferInstanceAs (Decidable (a.str ≤ b.str))

instance : IsTotal Triple tripleLe :=
  ⟨fun a b => le_total a.str b.str⟩

instance : IsTrans Triple tripleLe :=
  ⟨fun _ _ _ h h2 => le_trans h h2⟩

/-- Model of `sort.Sort(&tripleSorter{triples})`. -/
def sortTriples (ts : List Triple) : List Triple :=
  List.insertionSort tripleLe ts

/-- Model of `(*Graph).Marshal`: materialize all facts, sort ascending by
canonical string form, join the string forms with a newline separator (no
trailing newline; an empty collection gives the empty sequence). The scan
against the in-memory store never fails, so the error result is dropped. -/
def Graph.Marshal (g : Graph) : Str :=
  joinWith '\n' ((sortTriples g.facts).map Triple.str)

/-- Loop of `(*Graph).Unmarshal` over the split lines, generic in the line
parser and in the add operation (which may change the state even when it
reports an error, as `Add` bumps the counter before the store call):
skip whitespace-only lines, parse each remaining line, add each parsed
fact individually, and stop at the first parse or add error without
rolling back earlier additions. -/
def processLines {γ : Type} (parse : Str → Except Err Triple) (add : Triple → γ → γ × Option Err) : List Str → γ → γ × Option Err
  | [], g => (g, none)
  | l :: ls, g =>
    if isBlank l then processLines parse add ls g
    else
      match parse l with
      | .error e => (g, some e)
      | .ok t =>
        match add t g with
        | (g2, some e) => (g2, some e)
        | (g2, none) => processLines parse add ls g2

/-- Model of `(*Graph).Add` restricted to one fact, as used by
`Unmarshal`; the in-memory store add reports no error. -/
def memAdd (t : Triple) (g : Graph) : Graph × Option Err :=
  (g.Add [t], none)

/-- Model of `(*Graph).Unmarshal`: split the input on newline and process
the lines in order. -/
def Graph.Unmarshal (g : Graph) (data : Str) : Graph × Option Err :=
  processLines parseTriple memAdd (splitOnChar '\n' data) g

/-- Conversion of the object of a relation into a child node, as in
`relation.Object().Node()`: fails on the first object that is not node
shaped, otherwise yields the child identifiers in relation order. -/
def collectNodes : List Triple → Except Err (List Str)
  | [] => .ok []
  | t :: ts =>
    match t.obj with
    | .node id =>
      match collectNodes ts with
      | .ok ns => .ok (id :: ns)
      | .error e => .error e
    | .lit v => .error (.notNode v)

/-- Model of `sort.Sort(&nodeSorter{childs})`: ascending case-sensitive
lexical order of the node identifier strings. -/
def sortNodes (ns : List Str) : List Str :=
  List.insertionSort (fun a b : Str => a ≤ b) ns

/-- Modelled from the spec: the helper `triplesForSubjectAndPredicate`
(declared in this repository outside `src/`) queries the store for all
facts with the given subject and the given predicate. Against the
in-memory store the query cannot fail. -/
def triplesForSubjectAndPredicate (g : Graph) (s : Str) (p : Str) : Except Err (List Triple) :=
  .ok (g.facts.filter fun t => decide (t.subj = s ∧ t.pred = p))

/-- Model of `(*Graph).VisitDepthFirst`, generic in the store query used
for the parent-of relation and bounded by fuel (the Go recursion is
unbounded): the returned list is the sequence of `each(node, depth)`
calls, the option the returned error. The error of a recursive child call
is discarded by the Go loop, hence only the visit list of a child call is
used here. -/
def visitDF (query : Str → Except Err (List Triple)) : Nat → Str → Nat → List (Str × Nat) × Option Err
  | 0, _, _ => ([], some .fuel)
  | f + 1, root, dist =>
    match query root with
    | .error e => ([(root, dist)], some e)
    | .ok relations =>
      match collectNodes relations with
      | .error e => ([(root, dist)], some e)
      | .ok childs =>
        ((root, dist) :: (sortNodes childs).flatMap (fun c => (visitDF query f c (dist + 1)).1), none)

/-- Model of `(*Graph).VisitDepthFirst` against the in-memory store. -/
def Graph.VisitDepthFirst (g : Graph) (fuel : Nat) (root : Str) (dist : Nat) : List (Str × Nat) × Option Err :=
  visitDF (fun n => triplesForSubjectAndPredicate g n parentOf) fuel root dist

/-- Identifier of the object of a fact when it is node shaped. -/
def objNodeId (t : Triple) : Option Str :=
  match t.obj with
  | .node id => some id
  | .lit _ => none

/-- Sorted identifiers of the parent-of children of a node. -/
def childrenOf (g : Graph) (root : Str) : List Str :=
  sortNodes ((g.facts.filter fun t => decide (t.subj = root ∧ t.pred = parentOf)).filterMap objNodeId)

/-- Node identifiers used by the worked examples. -/
def nodeA : Str := "a".data

/-- Node identifier b. -/
def nodeB : Str := "b".data

/-- Node identifier c. -/
def nodeC : Str := "c".data

/-- Node identifier d. -/
def nodeD : Str := "d".data

/-- Parent-of fact between two nodes. -/
def parentFact (s o : Str) : Triple :=
  ⟨s, parentOf, .node o⟩

/-- The example graph of the spec: facts a parent_of b, a parent_of c,
c parent_of d. -/
def exGraph : Graph :=
  NewNamedGraphFromTriples "g".data [parentFact nodeA nodeB, parentFact nodeA nodeC, parentFact nodeC nodeD]

/-- Store query in which the query for node b fails while the others
succeed: children b and c below a, nothing below c. -/
def cexQuery : Str → Except Err (List Triple) :=
  fun n =>
    if n = nodeA then .ok [parentFact nodeA nodeB, parentFact nodeA nodeC]
    else if n = nodeB then .error (.query "boom".data)
    else .ok []

/-- Sample fact with a literal object. -/
def sampleLit : Triple :=
  ⟨"s".data, "p".data, .lit "v".data⟩

/-- Sample fact with a node object. -/
def sampleNode : Triple :=
  ⟨"a".data, "p".data, .node "o".data⟩

/-- Sample two-fact collection. -/
def sampleGraph : Graph :=
  NewNamedGraphFromTriples "g".data [sampleLit, sampleNode]

/-- Splitting never yields an empty list of fields. -/
theorem splitOnChar_ne_nil (c : Char) (s : Str) : splitOnChar c s ≠ [] := by
  induction s with
  | nil => simp [splitOnChar]
  | cons x xs ih =>
    simp only [splitOnChar]
    by_cases h : x = c
    · simp [h]
    · simp only [if_neg h]
      cases hs : splitOnChar c xs with
      | nil => simp
      | cons l ls => simp

/-- Splitting a separator-free string yields that single field. -/
theorem splitOnChar_no_sep {c : Char} : ∀ {l : Str}, c ∉ l → splitOnChar c l = [l]
  | [], _ => rfl
  | x :: xs, h => by
    simp only [List.mem_cons, not_or] at h
    simp only [splitOnChar, if_neg (fun hx : x = c => h.1 hx.symm)]
    rw [splitOnChar_no_sep h.2]

/-- Splitting peels off a leading separator-free field. -/
theorem splitOnChar_append_cons {c : Char} : ∀ {l : Str} (rest : Str), c ∉ l →
    splitOnChar c (l ++ c :: rest) = l :: splitOnChar c rest
  | [], rest, _ => by simp [splitOnChar]
  | x :: xs, rest, h => by
    simp only [List.mem_cons, not_or] at h
    simp only [List.cons_append, splitOnChar, if_neg (fun hx : x = c => h.1 hx.symm),
      List.append_eq]
    rw [splitOnChar_append_cons rest h.2]

/-- Splitting inverts joining for a nonempty list of separator-free
fields. -/
theorem splitOnChar_joinWith {c : Char} : ∀ {ls : List Str}, (∀ l ∈ ls, c ∉ l) → ls ≠ [] →
    splitOnChar c (joinWith c ls) = ls
  | [], _, h2 => absurd rfl h2
  | [l], h, _ => by
    simp only [joinWith]
    exact splitOnChar_no_sep (h l (by simp))
  | l :: l2 :: ls, h, _ => by
    simp only [joinWith]
    rw [splitOnChar_append_cons _ (h l (by simp))]
    rw [splitOnChar_joinWith (fun x hx => h x (List.mem_cons_of_mem _ hx)) (by simp)]

/-- Rendered objects contain no tab when the payload contains none. -/
theorem render_no_tab {o : Obj} (h : '\t' ∉ o.payload) : '\t' ∉ o.render := by
  cases o with
  | node id =>
    simp only [Obj.payload] at h
    simp only [Obj.render, List.mem_cons, not_or]
    exact ⟨by decide, by decide, h⟩
  | lit v =>
    simp only [Obj.payload] at h
    simp only [Obj.render, List.mem_cons, not_or]
    exact ⟨by decide, by decide, h⟩

/-- Parsing inverts the canonical string form on well-formed facts. -/
theorem parseTriple_str {t : Triple} (h : t.wf) : parseTriple t.str = .ok t := by
  obtain ⟨⟨hs, _⟩, ⟨hp, _⟩, ⟨ho, _⟩⟩ := h
  unfold parseTriple Triple.str
  rw [splitOnChar_append_cons _ hs, splitOnChar_append_cons _ hp,
    splitOnChar_no_sep (render_no_tab ho)]
  obtain ⟨s, p, o⟩ := t
  cases o <;> rfl

/-- The canonical string of a fact always contains a colon. -/
theorem colon_mem_str (t : Triple) : ':' ∈ t.str := by
  obtain ⟨s, p, o⟩ := t
  cases o <;> simp [Triple.str, Obj.render]

/-- No canonical fact string is a whitespace-only line. -/
theorem isBlank_str (t : Triple) : isBlank t.str = false := by
  cases hb : isBlank t.str with
  | false => rfl
  | true =>
    rw [isBlank, List.all_eq_true] at hb
    have hc := hb ':' (colon_mem_str t)
    simp at hc

/-- The canonical string of a well-formed fact contains no newline. -/
theorem str_no_newline {t : Triple} (h : t.wf) : '\n' ∉ t.str := by
  obtain ⟨⟨_, hs⟩, ⟨_, hp⟩, ⟨_, ho⟩⟩ := h
  obtain ⟨s, p, o⟩ := t
  cases o <;>
    simp only [Triple.str, Obj.render, Obj.payload, List.mem_append, List.mem_cons,
      not_or] at ho ⊢ <;>
    exact ⟨hs, by decide, hp, by decide, by decide, by decide, ho⟩

/-- Membership after a store insert. -/
theorem mem_insertFact {fs : List Triple} {u t : Triple} :
    t ∈ insertFact fs u ↔ t ∈ fs ∨ t = u := by
  rw [insertFact]
  by_cases h : u ∈ fs
  · rw [if_pos h]
    constructor
    · exact Or.inl
    · rintro (ht | rfl)
      · exact ht
      · exact h
  · rw [if_neg h]
    simp

/-- Membership after a store bulk add. -/
theorem mem_addFacts : ∀ {ts fs : List Triple} {t : Triple},
    t ∈ addFacts fs ts ↔ t ∈ fs ∨ t ∈ ts
  | [], _, _ => by simp [addFacts]
  | u :: us, fs, t => by
    show t ∈ addFacts (insertFact fs u) us ↔ _
    rw [mem_addFacts, mem_insertFact]
    simp only [List.mem_cons]
    tauto

/-- Adding fresh, duplicate-free facts appends them in order. -/
theorem addFacts_of_fresh : ∀ {ts fs : List Triple}, (∀ t ∈ ts, t ∉ fs) → ts.Nodup →
    addFacts fs ts = fs ++ ts
  | [], fs, _, _ => by simp [addFacts]
  | u :: us, fs, hf, hnd => by
    have hu : u ∉ fs := hf u (by simp)
    show addFacts (insertFact fs u) us = _
    rw [insertFact, if_neg hu]
    rw [addFacts_of_fresh (fun t ht => by
        simp only [List.mem_append, List.mem_cons, not_or]
        exact ⟨hf t (List.mem_cons_of_mem _ ht),
          fun (he : t = u) => (List.nodup_cons.mp hnd).1 (he ▸ ht), List.not_mem_nil t⟩)
      (List.nodup_cons.mp hnd).2]
    simp

/-- Bulk add of a duplicate-free list into an empty collection reproduces
the list. -/
theorem addFacts_nil {ts : List Triple} (hnd : ts.Nodup) : addFacts [] ts = ts := by
  rw [addFacts_of_fresh (fun t _ => List.not_mem_nil t) hnd]
  simp

/-- Processing a prefix that succeeds continues with the remaining lines
from the state the prefix produced. -/
theorem processLines_append {γ : Type} (parse : Str → Except Err Triple)
    (add : Triple → γ → γ × Option Err) :
    ∀ (pre suf : List Str) (g g2 : γ),
      processLines parse add pre g = (g2, none) →
      processLines parse add (pre ++ suf) g = processLines parse add suf g2
  | [], suf, g, g2, h => by
    simp only [processLines, Prod.mk.injEq] at h
    rw [List.nil_append, h.1]
  | l :: ls, suf, g, g2, h => by
    rw [List.cons_append]
    by_cases hb : isBlank l = true
    · simp only [processLines, if_pos hb] at h ⊢
      exact processLines_append parse add ls suf g g2 h
    · simp only [processLines, if_neg hb] at h ⊢
      cases hp : parse l with
      | error e =>
        simp only [hp] at h
        simp at h
      | ok t =>
        simp only [hp] at h ⊢
        rcases hadd : add t g with ⟨g3, oe⟩
        simp only [hadd] at h ⊢
        cases oe with
        | some e => simp at h
        | none => exact processLines_append parse add ls suf g3 g2 h

/-- Processing the canonical lines of well-formed facts adds each fact in
order and reports no error. -/
theorem processLines_str : ∀ (ts : List Triple) (g : Graph), (∀ t ∈ ts, t.wf) →
    processLines parseTriple memAdd (ts.map Triple.str) g =
      (ts.foldl (fun h t => h.Add [t]) g, none)
  | [], g, _ => rfl
  | t :: us, g, hwf => by
    simp only [List.map_cons, processLines, isBlank_str t, Bool.false_eq_true, if_neg,
      parseTriple_str (hwf t (by simp)), memAdd, List.foldl_cons]
    exact processLines_str us (g.Add [t]) fun u hu => hwf u (List.mem_cons_of_mem _ hu)

/-- Folding single-fact adds accumulates the facts via the store insert. -/
theorem foldl_add_facts : ∀ (ts : List Triple) (g : Graph),
    (ts.foldl (fun h t => h.Add [t]) g).facts = addFacts g.facts ts
  | [], g => rfl
  | t :: us, g => by
    rw [List.foldl_cons]
    rw [foldl_add_facts us (g.Add [t])]
    rfl

/-- Collecting the child nodes succeeds exactly on node-shaped objects and
yields their identifiers in relation order. -/
theorem collectNodes_ok : ∀ {ts : List Triple}, (∀ t ∈ ts, ∃ id, t.obj = Obj.node id) →
    collectNodes ts = .ok (ts.filterMap objNodeId)
  | [], _ => rfl
  | t :: ts, h => by
    obtain ⟨id, hid⟩ := h t (by simp)
    simp only [collectNodes, hid, List.filterMap_cons, objNodeId]
    rw [collectNodes_ok fun u hu => h u (List.mem_cons_of_mem _ hu)]

/-- Membership in the intersection fold, generalized over the start
collection. -/
theorem mem_foldl_intersectStep (exist : Triple → Bool × Option Err) :
    ∀ (all : List Triple) (init : Graph) (t : Triple),
      t ∈ (all.foldl (intersectStep exist) init).facts ↔
        t ∈ init.facts ∨ (t ∈ all ∧ exist t = (true, none))
  | [], init, t => by simp
  | u :: us, init, t => by
    rw [List.foldl_cons, mem_foldl_intersectStep exist us (intersectStep exist init u) t]
    by_cases hc : exist u = (true, none)
    · rw [intersectStep, if_pos hc]
      have hstep : (init.Add [u]).facts = insertFact init.facts u := rfl
      rw [hstep, mem_insertFact]
      have hp : t = u → exist t = (true, none) := fun he => by rw [he]; exact hc
      simp only [List.mem_cons]
      tauto
    · rw [intersectStep, if_neg hc]
      have hq : t = u → ¬exist t = (true, none) := fun he => by rw [he]; exact hc
      simp only [List.mem_cons]
      tauto

/-- C3: for every pair of graphs `a` and `b` (and any fresh name for the
result collection), `Substract` yields a collection whose fact set is
exactly the set difference of the fact sets: a fact of `a` that is not a
fact of `b`, and nothing else. The operation reads `a` and `b` and builds
a new value, so the inputs are untouched (the model is pure because the Go
code only scans its inputs). -/
theorem substract_facts (a b : Graph) (fresh : Str) :
    ∀ t, t ∈ (a.Substract b fresh).facts ↔ t ∈ a.facts ∧ t ∉ b.facts := by
  intro t
  show t ∈ removeFacts (addFacts [] a.facts) b.facts ↔ _
  rw [removeFacts, List.mem_filter, mem_addFacts]
  simp

/-- C4: a fact of `a` ends up in the intersection exactly when the
existence check of `b` on it returns true with no error; a failed scan
aside, the operation always returns a collection, so an existence-check
error is never propagated — the fact is just skipped. -/
theorem intersect_contains_iff_exist (all : List Triple) (exist : Triple → Bool × Option Err) (fresh : Str) :
    IntersectWith (all, none) exist fresh = some (intersectLoop fresh all exist) ∧
    ∀ t, t ∈ (intersectLoop fresh all exist).facts ↔ t ∈ all ∧ exist t = (true, none) := by
  refine ⟨rfl, fun t => ?_⟩
  rw [intersectLoop, mem_foldl_intersectStep]
  simp [NewNamedGraph]

/-- C8: a graph built from a list of facts reports a counter of twice the
list length: the counter is pre-set to the length and the internal `Add`
increments it by the length again. -/
theorem newNamedGraphFromTriples_count (name : Str) (ts : List Triple) :
    (NewNamedGraphFromTriples name ts).TriplesCount = 2 * ts.length := by
  show ts.length + ts.length = 2 * ts.length
  omega

/-- C9 counterexample: the collection produced by `Substract` has a
counter equal to the number of facts of `a`, not twice that number — here
`a` holds two facts and the result counter is 2, not 4. -/
theorem substract_count_cex :
    ¬ (sampleGraph.Substract (NewNamedGraph "x".data) "f".data).TriplesCount
        = 2 * sampleGraph.facts.length := by
  decide

/-- C9 amended: the fresh collection produced by `Substract` has a counter
equal to the number of facts of `a`, counted once: the copy starts from a
zero counter and its single bulk add increments it by the number of copied
facts; the removals that follow never decrement it. -/
theorem substract_count_amended (a b : Graph) (fresh : Str) :
    (a.Substract b fresh).TriplesCount = a.facts.length := by
  show 0 + a.facts.length = a.facts.length
  omega

/-- C10: when the full scan of `a` fails during `Intersect`, the operation
returns the nil graph — and since the Go signature has no error result,
no error value either. -/
theorem intersect_scan_failure (all : List Triple) (e : Err) (exist : Triple → Bool × Option Err) (fresh : Str) :
    IntersectWith (all, some e) exist fresh = none :=
  rfl

/-- C7 counterexample: with the store query failing for node b, the
traversal from a still visits the sibling c after the failure below b, and
the caller receives no error at all — the recursive error is discarded by
the loop, refuting fail-fast abortion and error propagation. -/
theorem visitDepthFirst_child_error_cex :
    cexQuery nodeB = .error (.query "boom".data) ∧
    (visitDF cexQuery 8 nodeA 0).1 = [(nodeA, 0), (nodeB, 1), (nodeC, 1)] ∧
    (visitDF cexQuery 8 nodeA 0).2 = none := by
  refine ⟨by decide, by decide, by decide⟩

/-- C7 amended: an error of the store query for the root itself, or of
interpreting one of the root relations as a node, aborts the traversal
right after the root visit and is returned to the caller; but when the
root level succeeds the call reports no error, whatever happens inside the
recursive child calls — their errors are discarded, the failing subtree is
cut short and later siblings are still visited. -/
theorem visitDepthFirst_error_amended (query : Str → Except Err (List Triple)) (root : Str) (dist fuel : Nat) :
    (∀ e, query root = .error e → visitDF query (fuel + 1) root dist = ([(root, dist)], some e)) ∧
    (∀ rels e, query root = .ok rels → collectNodes rels = .error e →
      visitDF query (fuel + 1) root dist = ([(root, dist)], some e)) ∧
    (∀ rels cs, query root = .ok rels → collectNodes rels = .ok cs →
      (visitDF query (fuel + 1) root dist).2 = none) := by
  refine ⟨fun e he => ?_, fun rels e hr hc => ?_, fun rels cs hr hc => ?_⟩
  · simp only [visitDF, he]
  · simp only [visitDF, hr, hc]
  · simp only [visitDF, hr, hc]

/-- C7 witness for the amended statement: the query error for node b is
returned when the traversal starts at b itself. -/
theorem visitDepthFirst_error_amended_witness :
    visitDF cexQuery 1 nodeB 1 = ([(nodeB, 1)], some (.query "boom".data)) :=
  (visitDepthFirst_error_amended cexQuery nodeB 1 0).1 (.query "boom".data) (by decide)

/-- C2: on a graph whose parent-of facts all have node-shaped objects (in
particular on a tree), a traversal step visits the root first at the start
depth and then each child subtree at depth + 1, the children taken in
ascending case-sensitive lexical order of their identifier strings; on the
example facts a parent_of b, a parent_of c, c parent_of d the visit
sequence from a is exactly (a,0), (b,1), (c,1), (d,2); and the traversal
is a pure function, so two calls from the same root give the identical
visit sequence. -/
theorem visitDepthFirst_sorted_preorder :
    (∀ (g : Graph) (root : Str) (dist fuel : Nat),
      (∀ t ∈ g.facts, t.pred = parentOf → objNodeId t ≠ none) →
      List.Sorted (fun a b : Str => a ≤ b) (childrenOf g root) ∧
      (g.VisitDepthFirst (fuel + 1) root dist).1 =
        (root, dist) :: (childrenOf g root).flatMap (fun c => (g.VisitDepthFirst fuel c (dist + 1)).1)) ∧
    exGraph.VisitDepthFirst 8 nodeA 0 = ([(nodeA, 0), (nodeB, 1), (nodeC, 1), (nodeD, 2)], none) ∧
    ∀ (g : Graph) (root : Str) (dist fuel : Nat),
      g.VisitDepthFirst fuel root dist = g.VisitDepthFirst fuel root dist := by
  refine ⟨fun g root dist fuel hnode => ⟨List.sorted_insertionSort _ _, ?_⟩, by decide, fun _ _ _ _ => rfl⟩
  have hq : ∀ t ∈ g.facts.filter (fun t => decide (t.subj = root ∧ t.pred = parentOf)),
      ∃ id, t.obj = Obj.node id := by
    intro t ht
    rw [List.mem_filter] at ht
    have h2 := (of_decide_eq_true ht.2).2
    have h3 := hnode t ht.1 h2
    cases hobj : t.obj with
    | node id => exact ⟨id, rfl⟩
    | lit v =>
      rw [objNodeId, hobj] at h3
      simp at h3
  show (visitDF (fun n => triplesForSubjectAndPredicate g n parentOf) (fuel + 1) root dist).1 = _
  simp only [visitDF, triplesForSubjectAndPredicate, collectNodes_ok hq]
  rfl

/-- C2 witness: the structured step and the sorted children, instantiated
on the example graph at its root. -/
theorem visitDepthFirst_sorted_preorder_witness :
    List.Sorted (fun a b : Str => a ≤ b) (childrenOf exGraph nodeA) ∧
    (exGraph.VisitDepthFirst 3 nodeA 0).1 =
      (nodeA, 0) :: (childrenOf exGraph nodeA).flatMap (fun c => (exGraph.VisitDepthFirst 2 c 1).1) :=
  visitDepthFirst_sorted_preorder.1 exGraph nodeA 0 2 (by decide)

/-- C5: `Marshal` joins the canonical strings of the facts with single
newline separators (so no trailing newline after the last entry), the
facts being all of the facts of the collection sorted ascending by their
whole-triple canonical string form; an empty collection marshals to the
empty sequence, and for a nonempty well-formed collection splitting the
output on newline recovers exactly the sorted lines (which a trailing
newline would break by adding an empty final line). -/
theorem marshal_sorted_joined (g : Graph) (hwf : ∀ t ∈ g.facts, t.wf) :
    g.Marshal = joinWith '\n' ((sortTriples g.facts).map Triple.str) ∧
    List.Sorted tripleLe (sortTriples g.facts) ∧
    List.Perm (sortTriples g.facts) g.facts ∧
    (g.facts = [] → g.Marshal = []) ∧
    (g.facts ≠ [] → splitOnChar '\n' g.Marshal = (sortTriples g.facts).map Triple.str) := by
  refine ⟨rfl, List.sorted_insertionSort _ _, List.perm_insertionSort _ _, ?_, ?_⟩
  · intro h
    rw [Graph.Marshal, h]
    rfl
  · intro h
    have hperm := List.perm_insertionSort tripleLe g.facts
    have hlines : ∀ l ∈ (sortTriples g.facts).map Triple.str, '\n' ∉ l := by
      intro l hl
      rw [List.mem_map] at hl
      obtain ⟨t, ht, rfl⟩ := hl
      exact str_no_newline (hwf t (hperm.mem_iff.mp ht))
    have hlne : (sortTriples g.facts).map Triple.str ≠ [] := by
      intro hm
      rw [List.map_eq_nil_iff] at hm
      have h2 : List.Perm ([] : List Triple) g.facts := hm ▸ hperm
      exact h (List.Perm.eq_nil h2.symm)
    exact splitOnChar_joinWith hlines hlne

/-- C5 witness: the marshalling properties instantiated on the two-fact
sample collection. -/
theorem marshal_sorted_joined_witness :
    sampleGraph.Marshal = joinWith '\n' ((sortTriples sampleGraph.facts).map Triple.str) ∧
    List.Sorted tripleLe (sortTriples sampleGraph.facts) ∧
    List.Perm (sortTriples sampleGraph.facts) sampleGraph.facts ∧
    (sampleGraph.facts = [] → sampleGraph.Marshal = []) ∧
    (sampleGraph.facts ≠ [] →
      splitOnChar '\n' sampleGraph.Marshal = (sortTriples sampleGraph.facts).map Triple.str) :=
  marshal_sorted_joined sampleGraph (by decide)

/-- C6: `Unmarshal` splits the input on newline and processes the lines in
order, skipping whitespace-only lines and adding each parsed fact
individually; the first parse error, or the first add error, is returned
as is and stops the processing, with the state reached by the earlier
lines kept (no rollback). -/
theorem unmarshal_first_error :
    (∀ (γ : Type) (parse : Str → Except Err Triple) (add : Triple → γ → γ × Option Err)
        (l : Str) (ls : List Str) (g : γ), isBlank l = true →
        processLines parse add (l :: ls) g = processLines parse add ls g) ∧
    (∀ (γ : Type) (parse : Str → Except Err Triple) (add : Triple → γ → γ × Option Err)
        (pre : List Str) (bad : Str) (rest : List Str) (g g2 : γ),
        processLines parse add pre g = (g2, none) → isBlank bad = false →
        (∀ e, parse bad = .error e →
          processLines parse add (pre ++ bad :: rest) g = (g2, some e)) ∧
        (∀ t g3 e, parse bad = .ok t → add t g2 = (g3, some e) →
          processLines parse add (pre ++ bad :: rest) g = (g3, some e))) ∧
    ∀ (g : Graph) (data : Str),
      g.Unmarshal data = processLines parseTriple memAdd (splitOnChar '\n' data) g := by
  refine ⟨?_, ?_, fun g data => rfl⟩
  · intro γ parse add l ls g hb
    simp only [processLines, if_pos hb]
  · intro γ parse add pre bad rest g g2 hpre hbad
    have hb' : ¬ isBlank bad = true := by rw [hbad]; simp
    constructor
    · intro e hp
      rw [processLines_append parse add pre (bad :: rest) g g2 hpre]
      simp only [processLines, if_neg hb', hp]
    · intro t g3 e hp ha
      rw [processLines_append parse add pre (bad :: rest) g g2 hpre]
      simp only [processLines, if_neg hb', hp, ha]

/-- C6 witness: one good line followed by an unparsable line stops with
the parse error of the bad line, the fact of the good line staying added. -/
theorem unmarshal_first_error_witness :
    processLines parseTriple memAdd ([Triple.str sampleNode] ++ "x".data :: []) (NewNamedGraph "h".data)
      = ((NewNamedGraph "h".data).Add [sampleNode], some (.parseFailure "x".data)) :=
  (unmarshal_first_error.2.1 Graph parseTriple memAdd [Triple.str sampleNode] "x".data []
    (NewNamedGraph "h".data) ((NewNamedGraph "h".data).Add [sampleNode]) (by decide) (by decide)).1
    (.parseFailure "x".data) (by decide)

/-- C1: building a collection from a duplicate-free list of well-formed
facts, marshalling it and unmarshalling the bytes into a fresh empty
collection succeeds and reproduces exactly the fact set of the input
(order-independent set equality). -/
theorem marshal_unmarshal_roundtrip (F : List Triple) (name name2 : Str)
    (hwf : ∀ t ∈ F, t.wf) (hnd : F.Nodup) :
    ((NewNamedGraph name2).Unmarshal (NewNamedGraphFromTriples name F).Marshal).2 = none ∧
    ∀ t, t ∈ ((NewNamedGraph name2).Unmarshal (NewNamedGraphFromTriples name F).Marshal).1.facts ↔ t ∈ F := by
  by_cases hne : F = []
  · subst hne
    exact ⟨rfl, fun t => Iff.rfl⟩
  · have hfacts : (NewNamedGraphFromTriples name F).facts = F := by
      show addFacts [] F = F
      exact addFacts_nil hnd
    have hperm : List.Perm (sortTriples F) F := List.perm_insertionSort _ _
    have hndS : (sortTriples F).Nodup := hperm.nodup_iff.mpr hnd
    have hwfS : ∀ t ∈ sortTriples F, t.wf := fun t ht => hwf t (hperm.mem_iff.mp ht)
    have hM : (NewNamedGraphFromTriples name F).Marshal
        = joinWith '\n' ((sortTriples F).map Triple.str) := by
      rw [Graph.Marshal, hfacts]
    have hlines : ∀ l ∈ (sortTriples F).map Triple.str, '\n' ∉ l := by
      intro l hl
      rw [List.mem_map] at hl
      obtain ⟨t, ht, rfl⟩ := hl
      exact str_no_newline (hwfS t ht)
    have hlne : (sortTriples F).map Triple.str ≠ [] := by
      intro hm
      rw [List.map_eq_nil_iff] at hm
      have h2 : List.Perm ([] : List Triple) F := hm ▸ hperm
      exact hne (List.Perm.eq_nil h2.symm)
    have hU : (NewNamedGraph name2).Unmarshal (NewNamedGraphFromTriples name F).Marshal
        = ((sortTriples F).foldl (fun h t => h.Add [t]) (NewNamedGraph name2), none) := by
      rw [Graph.Unmarshal, hM, splitOnChar_joinWith hlines hlne]
      exact processLines_str (sortTriples F) _ hwfS
    refine ⟨by rw [hU], fun t => ?_⟩
    rw [hU]
    show t ∈ ((sortTriples F).foldl (fun h t => h.Add [t]) (NewNamedGraph name2)).facts ↔ t ∈ F
    rw [foldl_add_facts]
    show t ∈ addFacts [] (sortTriples F) ↔ t ∈ F
    rw [addFacts_nil hndS]
    exact hperm.mem_iff

/-- C1 witness: the round trip on a concrete two-fact list, with the
membership equivalence instantiated at one of the facts. -/
theorem marshal_unmarshal_roundtrip_witness :
    ((NewNamedGraph "h".data).Unmarshal
        (NewNamedGraphFromTriples "g".data [sampleLit, sampleNode]).Marshal).2 = none ∧
    (sampleLit ∈ ((NewNamedGraph "h".data).Unmarshal
        (NewNamedGraphFromTriples "g".data [sampleLit, sampleNode]).Marshal).1.facts ↔
      sampleLit ∈ [sampleLit, sampleNode]) :=
  ⟨(marshal_unmarshal_roundtrip [sampleLit, sampleNode] "g".data "h".data (by decide) (by decide)).1,
   (marshal_unmarshal_roundtrip [sampleLit, sampleNode] "g".data "h".data (by decide) (by decide)).2
     sampleLit⟩
